import Mathlib

/-!
Verification development for `tools/python/util/onnx_model_utils.py`.

The Python module analyses ONNX `GraphProto` structures: it builds
producer/consumer dependency maps over a graph and its nested control-flow
subgraphs (`_map_node_dependencies`, `get_producer_consumer_maps`), and fixes
symbolic / unknown tensor dimensions (`_replace_symbolic_dim_value`,
`_make_dim_param_fixed`, `_make_input_shape_fixed`, `is_fixed_size_tensor`).

Modelling conventions:
* Protobuf message fields that the code tests with `HasField` are modelled as
  `Option`; reading an unset singular message field yields its default value
  (protobuf semantics), which we model with `Option.getD`.
* A `TensorShapeProto.Dimension` carries a oneof `dim_value : int64
  / dim_param : string / unset`, modelled by the inductive `Dim`.
* Python dicts keyed by `NodeProto` use identity hashing (the module installs
  `NodeProto.__hash__ = lambda self: id(self)`).  We model object identity by
  giving every node a numeral identity `nid : Nat`; distinct node objects in a
  protobuf tree are distinct objects, which concrete graphs reflect by using
  distinct `nid`s (theorems that need it take an explicit `Nodup` hypothesis).
* Python `dict` insertion/update semantics are modelled by association lists
  (`dictSet` overwrites in place or appends at the end), Python `set.add` by
  append-if-absent, so membership coincides with Python set membership.
* `node.attribute` is modelled by the field `attrs` (`attribute` is a reserved
  word in Lean); only the `g` (subgraph) payload matters to this module, other
  attribute payloads are collapsed into one constructor.
* `graph.initializer` is a list of `TensorProto`; the module only ever reads
  initializer names, so it is modelled as the list of those names.
-/

namespace Onnx

/-- One dimension of a tensor shape: the protobuf oneof
`dim_value` (int64) / `dim_param` (string) / unset. -/
inductive Dim : Type where
  | value (v : Int) : Dim
  | param (s : String) : Dim
  | unknown : Dim
deriving DecidableEq, Repr

/-- `onnx.TensorShapeProto`: an ordered list of dimensions. -/
structure TensorShapeProto : Type where
  dim : List Dim
deriving DecidableEq, Repr

/-- `onnx.TypeProto.Tensor`: the `shape` field is optional (`HasField`). -/
structure TensorTypeProto : Type where
  shape : Option TensorShapeProto
deriving DecidableEq, Repr

/-- `onnx.ValueInfoProto`: a named value; `type.tensor_type` is optional. -/
structure ValueInfoProto : Type where
  name : String
  type : Option TensorTypeProto
deriving DecidableEq, Repr

/-- Reading the singular message field `tensor_type.shape`: if unset, protobuf
returns the default (empty) `TensorShapeProto`. -/
def getShape (o : Option TensorShapeProto) : TensorShapeProto :=
  o.getD ⟨[]⟩

mutual
/-- `onnx.AttributeProto` as far as this module observes it: either it holds a
nested graph (`attr.HasField('g')`) or some other payload. -/
inductive AttrProto : Type where
  | subgraph (g : GraphProto) : AttrProto
  | scalar : AttrProto

/-- `onnx.NodeProto`: identity `nid` (object identity; see module docstring),
input value names, output value names, attributes. -/
inductive NodeProto : Type where
  | mk (nid : Nat) (input : List String) (output : List String)
       (attrs : List AttrProto) : NodeProto

/-- `onnx.GraphProto`: declared inputs, outputs, intermediate value infos,
initializer names and the ordered node list. -/
inductive GraphProto : Type where
  | mk (input : List ValueInfoProto) (output : List ValueInfoProto)
       (value_info : List ValueInfoProto) (initializer : List String)
       (node : List NodeProto) : GraphProto
end

def NodeProto.nid : NodeProto → Nat
  | .mk i _ _ _ => i

def NodeProto.input : NodeProto → List String
  | .mk _ i _ _ => i

def NodeProto.output : NodeProto → List String
  | .mk _ _ o _ => o

def NodeProto.attrs : NodeProto → List AttrProto
  | .mk _ _ _ a => a

def GraphProto.input : GraphProto → List ValueInfoProto
  | .mk i _ _ _ _ => i

def GraphProto.output : GraphProto → List ValueInfoProto
  | .mk _ o _ _ _ => o

def GraphProto.value_info : GraphProto → List ValueInfoProto
  | .mk _ _ v _ _ => v

def GraphProto.initializer : GraphProto → List String
  | .mk _ _ _ ini _ => ini

def GraphProto.node : GraphProto → List NodeProto
  | .mk _ _ _ _ n => n

/-- Names of a list of `ValueInfoProto` (`[i.name for i in graph.input]`). -/
def namesOf (vis : List ValueInfoProto) : List String :=
  vis.map ValueInfoProto.name

/-! ## Python dict / set primitives

`node_to_producers` and `node_to_consumers` are Python dicts from a node
(identity-hashed, modelled by `nid : Nat`) to a Python set of nodes.  We model
the dict as an association list with in-place update (append on new key, like
dict insertion order) and the set as a duplicate-free list with
append-if-absent insertion. -/

/-- A dict from node identity to a set of node identities. -/
abbrev DepMap := List (Nat × List Nat)

/-- Python `d.get(k)` / `k in d`: first binding of `k`. -/
def dictFind : DepMap → Nat → Option (List Nat)
  | [], _ => none
  | (k', v) :: rest, k => if k' = k then some v else dictFind rest k

/-- Python `d[k]` after the key is known to exist; `[]` for a missing key. -/
def dictGetD (m : DepMap) (k : Nat) : List Nat :=
  (dictFind m k).getD []

/-- Python `k in d`. -/
def dictContains (m : DepMap) (k : Nat) : Bool :=
  (dictFind m k).isSome

/-- Python `d[k] = v`: overwrite in place, or append a new binding. -/
def dictSet : DepMap → Nat → List Nat → DepMap
  | [], k, v => [(k, v)]
  | (k', v') :: rest, k, v =>
      if k' = k then (k, v) :: rest else (k', v') :: dictSet rest k v

/-- Python `if k not in d: d[k] = set()`. -/
def dictEnsure (m : DepMap) (k : Nat) : DepMap :=
  if dictContains m k then m else dictSet m k []

/-- Python `s.add(x)` on a set modelled as a duplicate-free list. -/
def setAdd (s : List Nat) (x : Nat) : List Nat :=
  if s.contains x then s else s ++ [x]

/-- The scope-local `producers` dict: value name ↦ producing node identity. -/
abbrev ProdMap := List (String × Nat)

/-- Lookup in the scope-local `producers` dict. -/
def prodFind : ProdMap → String → Option Nat
  | [], _ => none
  | (k', v) :: rest, k => if k' = k then some v else prodFind rest k

/-- Python `producers[o] = node`. -/
def prodSet : ProdMap → String → Nat → ProdMap
  | [], k, v => [(k, v)]
  | (k', v') :: rest, k, v =>
      if k' = k then (k, v) :: rest else (k', v') :: prodSet rest k v

/-- Python `implicit_inputs.add(i)` on a string set modelled as a
duplicate-free list. -/
def strSetAdd (s : List String) (x : String) : List String :=
  if s.contains x then s else s ++ [x]

/-- The pair of maps mutated throughout the analysis:
`node_to_producers` and `node_to_consumers`. -/
structure Maps : Type where
  ntp : DepMap
  ntc : DepMap
deriving Repr

/-- `_create_producer_consumer_link`: ensure both keys exist, then add the
producer to the consumer's producer set and vice versa. -/
def _create_producer_consumer_link (m : Maps) (producer consumer : Nat) : Maps :=
  let ntp := dictEnsure m.ntp consumer
  let ntc := dictEnsure m.ntc producer
  let ntp := dictSet ntp consumer (setAdd (dictGetD ntp consumer) producer)
  let ntc := dictSet ntc producer (setAdd (dictGetD ntc producer) consumer)
  ⟨ntp, ntc⟩

/-- `value in producers or value in initializers or value in graph_inputs`. -/
def is_local_value (producers : ProdMap) (initializers graph_inputs : List String)
    (value : String) : Bool :=
  (prodFind producers value).isSome || initializers.contains value
    || graph_inputs.contains value

/-- The `for i in inputs:` loop of `_map_node_dependencies` for the node with
identity `nid`: skip empty names, link locally produced values, record
locally unresolvable names as implicit inputs. -/
def processInputs (graph_inputs initializers : List String) (producers : ProdMap)
    (nid : Nat) : List String → List String → Maps → Maps × List String
  | [], implicit, m => (m, implicit)
  | i :: rest, implicit, m =>
      if i = "" then
        -- missing optional input
        processInputs graph_inputs initializers producers nid rest implicit m
      else if is_local_value producers initializers graph_inputs i then
        match prodFind producers i with
        | some producer =>
            processInputs graph_inputs initializers producers nid rest implicit
              (_create_producer_consumer_link m producer nid)
        | none => processInputs graph_inputs initializers producers nid rest implicit m
      else
        -- not produced above us, not in initializers for this graph. may be
        -- graph input or initializer in parent graph
        processInputs graph_inputs initializers producers nid rest
          (strSetAdd implicit i) m

/-- The `for o in node.output: producers[o] = node` loop. -/
def recordOutputs (producers : ProdMap) : List String → Nat → ProdMap
  | [], _ => producers
  | o :: rest, nid => recordOutputs (prodSet producers o nid) rest nid

mutual
/-- `_map_node_dependencies(graph, node_to_producers, node_to_consumers)`:
returns the updated maps and the scope's `implicit_inputs` set. -/
def _map_node_dependencies : GraphProto → Maps → Maps × List String
  | .mk inp _out _vi ini nodes, m =>
      mapNodes (namesOf inp) ini nodes [] [] m

/-- The `for node in graph.node:` loop, threading the scope-local `producers`
dict and `implicit_inputs` set. -/
def mapNodes (graph_inputs initializers : List String) :
    List NodeProto → ProdMap → List String → Maps → Maps × List String
  | [], _, implicit, m => (m, implicit)
  | .mk nid nin nout nattrs :: rest, producers, implicit, m =>
      let r1 := mapAttrs nattrs m nin
      let r2 := processInputs graph_inputs initializers producers nid r1.2 implicit r1.1
      mapNodes graph_inputs initializers rest (recordOutputs producers nout nid) r2.2 r2.1

/-- The `for attr in node.attribute:` loop: recursively analyse each nested
subgraph and append its implicit inputs to the node's effective input list. -/
def mapAttrs : List AttrProto → Maps → List String → Maps × List String
  | [], m, inputs => (m, inputs)
  | .scalar :: rest, m, inputs => mapAttrs rest m inputs
  | .subgraph sg :: rest, m, inputs =>
      let r := _map_node_dependencies sg m
      mapAttrs rest r.1 (inputs ++ r.2)
end

/-- Structured rendering of the `ValueError` raised by
`get_producer_consumer_maps`: carries the `sorted(implicit_inputs)` list that
the Python message joins with commas. -/
inductive GraphError : Type where
  | invalidModel (missing : List String) : GraphError
deriving DecidableEq, Repr

/-- Lexicographic comparison of code-point sequences; the order Python's
`sorted` uses on `str` values. -/
def charListLe : List Char → List Char → Bool
  | [], _ => true
  | _ :: _, [] => false
  | a :: as, b :: bs =>
      if a.toNat < b.toNat then true
      else if b.toNat < a.toNat then false
      else charListLe as bs

/-- Alphabetical (code-point lexicographic) order on strings. -/
def strLe (a b : String) : Bool := charListLe a.data b.data

/-- Python `sorted` on the implicit-input name set: a stable sort ascending
w.r.t. `strLe`. -/
def sortStrings (l : List String) : List String :=
  l.insertionSort (fun a b => strLe a b = true)

/-- `get_producer_consumer_maps(graph)`: run the dependency analysis from empty
maps; raise if the top-level scope has implicit inputs, naming them sorted.
(The Python function also installs an identity `__hash__` on `NodeProto`; map
keys here are node identities `nid` by construction, see the module
docstring.) -/
def get_producer_consumer_maps (graph : GraphProto) :
    Except GraphError (DepMap × DepMap) :=
  let r := _map_node_dependencies graph ⟨[], []⟩
  if r.2.isEmpty then .ok (r.1.ntp, r.1.ntc)
  else .error (.invalidModel (sortStrings r.2))

/-! ## Dimension fixing -/

/-- The per-dimension update inside `update_dim_values`:
`if dim.HasField('dim_param') and dim.dim_param == param_to_replace:
dim.Clear(); dim.dim_value = value`. -/
def replaceDim (param_to_replace : String) (value : Int) : Dim → Dim
  | .param s => if s = param_to_replace then .value value else .param s
  | d => d

/-- The `update_dim_values` closure of `_replace_symbolic_dim_value`: for each
value info with a tensor type, rewrite every dimension whose `dim_param`
matches.  (`if shape:` in the source tests the truthiness of a protobuf
message object, which is always true; when the `shape` field is unset, reading
it yields the default empty shape, so there are no dimension objects to
mutate — modelled by `Option.map` on the `shape` field.) -/
def update_dim_values (param_to_replace : String) (value : Int)
    (value_infos : List ValueInfoProto) : List ValueInfoProto :=
  value_infos.map fun vi =>
    match vi.type with
    | some tt =>
        ⟨vi.name, some ⟨tt.shape.map fun sh => ⟨sh.dim.map (replaceDim param_to_replace value)⟩⟩⟩
    | none => vi

/-- `_replace_symbolic_dim_value(graph, dim_param=…, value=…)`: update this
graph's declared inputs, outputs and value infos; nodes untouched. -/
def _replace_symbolic_dim_value (g : GraphProto) (param_to_replace : String)
    (value : Int) : GraphProto :=
  match g with
  | .mk inp out vi ini nodes =>
      .mk (update_dim_values param_to_replace value inp)
          (update_dim_values param_to_replace value out)
          (update_dim_values param_to_replace value vi) ini nodes

mutual
/-- `iterate_graph_per_graph_func(graph, _replace_symbolic_dim_value, …)`:
apply `_replace_symbolic_dim_value` to this graph, then recurse into every
nested subgraph attribute. -/
def fixGraph : GraphProto → String → Int → GraphProto
  | .mk inp out vi ini nodes, param, value =>
      .mk (update_dim_values param value inp) (update_dim_values param value out)
          (update_dim_values param value vi) ini (fixNodes nodes param value)

/-- Traversal of the node list for `fixGraph`. -/
def fixNodes : List NodeProto → String → Int → List NodeProto
  | [], _, _ => []
  | .mk nid nin nout nattrs :: rest, param, value =>
      .mk nid nin nout (fixAttrs nattrs param value) :: fixNodes rest param value

/-- Traversal of a node's attributes for `fixGraph`: only the `g` payload is
recursed into. -/
def fixAttrs : List AttrProto → String → Int → List AttrProto
  | [], _, _ => []
  | .scalar :: rest, param, value => .scalar :: fixAttrs rest param value
  | .subgraph sg :: rest, param, value =>
      .subgraph (fixGraph sg param value) :: fixAttrs rest param value
end

/-- `_make_dim_param_fixed(graph, param_name, value)`: propagate the symbolic
dimension replacement through the graph and all nested subgraphs. -/
def _make_dim_param_fixed (graph : GraphProto) (param_name : String) (value : Int) :
    GraphProto :=
  fixGraph graph param_name value

/-- `is_fixed_size_tensor(value)`: the source's docstring promises true only
for a tensor *with a shape* whose dimensions are all fixed, but the test
`if shape:` checks the truthiness of a protobuf message object, which is
always true — so an unset `shape` field behaves exactly like a declared empty
(scalar) shape. -/
def is_fixed_size_tensor (value : ValueInfoProto) : Bool :=
  match value.type with
  | some tensor_type =>
      let shape := getShape tensor_type.shape
      shape.dim.all fun dim =>
        match dim with
        | .value v => decide (0 < v)
        | _ => false
  | none => false

/-- Structured rendering of the `ValueError`s raised by
`_make_input_shape_fixed`.  `valueConflict` carries the dimension number
exactly as the Python message interpolates it (`idx + 1`). -/
inductive ShapeFixError : Type where
  | notATensor (input_name : String) : ShapeFixError
  | rankMismatch (existing replacement : Nat) : ShapeFixError
  | valueConflict (existing requested : Int) (dimension : Nat) : ShapeFixError
  | inputNotFound (input_name : String) (valid : List String) : ShapeFixError
deriving DecidableEq, Repr

/-- Index of the first graph input whose name matches
(`for i in graph.input: if i.name == input_name:`). -/
def findInputIdx : List ValueInfoProto → String → Option Nat
  | [], _ => none
  | vi :: rest, nm =>
      if vi.name = nm then some 0 else (findInputIdx rest nm).map (· + 1)

/-- Replace the element at one position of a list. -/
def modifyIdx : List α → Nat → (α → α) → List α
  | [], _, _ => []
  | a :: rest, 0, f => f a :: rest
  | a :: rest, n + 1, f => a :: modifyIdx rest n f

/-- The dimension list currently declared for the graph input at position
`pos` (the live view `shape.dim` the Python loop iterates, re-read after
in-place mutations). -/
def inputDimsAt (g : GraphProto) (pos : Nat) : List Dim :=
  match (g.input[pos]?).bind ValueInfoProto.type with
  | some tt => (getShape tt.shape).dim
  | none => []

/-- `dim.Clear(); dim.dim_value = value` on dimension `idx` of the graph input
at position `pos`. -/
def setInputDim (g : GraphProto) (pos idx : Nat) (value : Int) : GraphProto :=
  match g with
  | .mk inp out vi ini nodes =>
      .mk (modifyIdx inp pos fun v =>
            ⟨v.name, v.type.map fun tt =>
              ⟨tt.shape.map fun sh => ⟨modifyIdx sh.dim idx fun _ => .value value⟩⟩⟩)
          out vi ini nodes

/-- The `for dim in shape.dim:` loop of `_make_input_shape_fixed`: the last
argument counts the remaining iterations (the loop runs once per declared
dimension; mutations never change the rank).  At each step the current
dimension is re-read from the graph because replacing a `dim_param` rewrites
the whole graph, including the shape being iterated. -/
def fixShapeLoop (g : GraphProto) (pos : Nat) (fixed_shape : List Int) (idx : Nat) :
    Nat → Except ShapeFixError GraphProto
  | 0 => .ok g
  | fuel + 1 =>
      match (inputDimsAt g pos)[idx]?, fixed_shape[idx]? with
      | some (.value v), some f =>
          -- check any existing fixed dims match
          if v ≠ f then .error (.valueConflict v f (idx + 1))
          else fixShapeLoop g pos fixed_shape (idx + 1) fuel
      | some (.param s), some f =>
          -- replacing a dim_param so have to do that through the entire graph
          fixShapeLoop (_make_dim_param_fixed g s f) pos fixed_shape (idx + 1) fuel
      | some .unknown, some f =>
          -- replacing an unknown dim
          fixShapeLoop (setInputDim g pos idx f) pos fixed_shape (idx + 1) fuel
      | _, _ => .ok g   -- out of range: unreachable, the rank was checked first

/-- `_make_input_shape_fixed(graph, input_name, fixed_shape)`. -/
def _make_input_shape_fixed (g : GraphProto) (input_name : String)
    (fixed_shape : List Int) : Except ShapeFixError GraphProto :=
  match findInputIdx g.input input_name with
  | none => .error (.inputNotFound input_name (namesOf g.input))
  | some pos =>
      match (g.input[pos]?).bind ValueInfoProto.type with
      | none => .error (.notATensor input_name)
      | some tt =>
          -- graph input are required to have a shape to provide the rank
          let shape := getShape tt.shape
          if shape.dim.length ≠ fixed_shape.length then
            .error (.rankMismatch shape.dim.length fixed_shape.length)
          else fixShapeLoop g pos fixed_shape 0 shape.dim.length

/-! ## Specification-side definition for the symbolic-dimension fixer

The spec describes `fixSymbolicDimension` as: replace, across the graph and
all nested subgraphs, every dimension entry matching the symbolic name with
the concrete value, in declared inputs, outputs and intermediate value infos,
leaving all other dimensions and fields untouched.  The following definitions
follow the spec's words; the refinement theorem compares them with the
translation of the source. -/

/-- Spec-side dimension substitution: a matching entry becomes the concrete
value, anything else is untouched. -/
def specFixDim (param : String) (value : Int) (d : Dim) : Dim :=
  if d = .param param then .value value else d

/-- Spec-side map of a dimension substitution over one value info. -/
def specMapVi (f : Dim → Dim) (vi : ValueInfoProto) : ValueInfoProto :=
  ⟨vi.name, vi.type.map fun tt => ⟨tt.shape.map fun sh => ⟨sh.dim.map f⟩⟩⟩

mutual
/-- Spec-side map of a dimension substitution over a graph and every nested
subgraph: declared inputs, outputs and intermediate value infos. -/
def specMapGraph : (Dim → Dim) → GraphProto → GraphProto
  | f, .mk inp out vi ini nodes =>
      .mk (inp.map (specMapVi f)) (out.map (specMapVi f)) (vi.map (specMapVi f))
          ini (specMapNodes f nodes)

/-- Spec-side traversal of the node list. -/
def specMapNodes : (Dim → Dim) → List NodeProto → List NodeProto
  | _, [] => []
  | f, .mk nid nin nout nattrs :: rest =>
      .mk nid nin nout (specMapAttrs f nattrs) :: specMapNodes f rest

/-- Spec-side traversal of a node's attributes. -/
def specMapAttrs : (Dim → Dim) → List AttrProto → List AttrProto
  | _, [] => []
  | f, .scalar :: rest => .scalar :: specMapAttrs f rest
  | f, .subgraph sg :: rest => .subgraph (specMapGraph f sg) :: specMapAttrs f rest
end

/-! ## Node identities of a graph tree

`allIdsG` collects the identity of every node in a graph and its nested
subgraphs; a protobuf tree holds pairwise distinct node objects, which the
model expresses as `(allIdsG g).Nodup`. -/

mutual
/-- Identities of all nodes of a graph, nested subgraphs included. -/
def allIdsG : GraphProto → List Nat
  | .mk _ _ _ _ nodes => allIdsNodes nodes

/-- Identities of all nodes in a node list, nested subgraphs included. -/
def allIdsNodes : List NodeProto → List Nat
  | [] => []
  | .mk nid _ _ nattrs :: rest => nid :: (allIdsAttrs nattrs ++ allIdsNodes rest)

/-- Identities of all nodes inside subgraph attributes. -/
def allIdsAttrs : List AttrProto → List Nat
  | [] => []
  | .scalar :: rest => allIdsAttrs rest
  | .subgraph sg :: rest => allIdsG sg ++ allIdsAttrs rest
end

/-! ## Derived notions used by the theorems -/

/-- `b ∈ node_to_producers[a]`-style membership: the dependency maps hold an
edge from key `k` to `v`.  A missing key reads as the empty set. -/
def memEdge (m : DepMap) (k v : Nat) : Bool :=
  (dictGetD m k).contains v

/-- The mirror invariant of the two dependency maps. -/
def Mirror (m : Maps) : Prop :=
  ∀ a b, memEdge m.ntc a b = true ↔ memEdge m.ntp b a = true

/-- Every key of the map holds a non-empty set. -/
def NEmap (d : DepMap) : Prop :=
  ∀ k s, dictFind d k = some s → s ≠ []

/-- The invariant maintained for the pair of dependency maps. -/
def GoodMaps (m : Maps) : Prop :=
  Mirror m ∧ NEmap m.ntp ∧ NEmap m.ntc

/-- Edge-set inclusion between two states of the dependency maps: the
analysis only ever adds edges. -/
def MapsLE (m m' : Maps) : Prop :=
  (∀ a b, memEdge m.ntp a b = true → memEdge m'.ntp a b = true) ∧
  (∀ a b, memEdge m.ntc a b = true → memEdge m'.ntc a b = true)

/-- The scope-local `producers` dict after the `for node in graph.node:` loop
has recorded the outputs of the given nodes. -/
def producersAfter : List NodeProto → ProdMap → ProdMap
  | [], prod => prod
  | .mk nid _ nout _ :: rest, prod => producersAfter rest (recordOutputs prod nout nid)

/-- Node identities stored as values of a `producers` dict. -/
def prodVals (p : ProdMap) : List Nat :=
  p.map Prod.snd

/-- Identities of the nodes of one scope (no recursion into subgraphs). -/
def topIds (nodes : List NodeProto) : List Nat :=
  nodes.map NodeProto.nid

/-- The implicit-input set a graph's analysis returns (the maps threaded
through the analysis do not influence it). -/
def scopeImplicit (g : GraphProto) : List String :=
  (_map_node_dependencies g ⟨[], []⟩).2

/-- The effective input list of a node: its declared inputs followed by the
implicit inputs bubbled up from each nested subgraph attribute. -/
def nodeEffectiveInputs (n : NodeProto) : List String :=
  (mapAttrs n.attrs ⟨[], []⟩ n.input).2

/-! ## Concrete graphs used as witnesses and counterexamples -/

/-- A valid two-node chain: graph input "x"; node 0 maps "x" to "y";
node 1 maps "y" to "z". -/
def exGraphOK : GraphProto :=
  .mk [⟨"x", none⟩] [] [] []
    [ .mk 0 ["x"] ["y"] [], .mk 1 ["y"] ["z"] [] ]

/-- A subgraph whose single node (identity 2) consumes the closure-captured
value "x". -/
def exSubgraph : GraphProto :=
  .mk [] [] [] [] [ .mk 2 ["x"] ["n_out"] [] ]

/-- Owning node (identity 0, carrying `exSubgraph`) appears BEFORE the node
producing "x" (identity 1) in the root scope. -/
def exGraphOwnerFirst : GraphProto :=
  .mk [] [] [] []
    [ .mk 0 [] [] [ .subgraph exSubgraph ], .mk 1 [] ["x"] [] ]

/-- Producer of "x" (identity 0) appears BEFORE the owning node
(identity 1, carrying `exSubgraph`) in the root scope. -/
def exGraphProducerFirst : GraphProto :=
  .mk [] [] [] []
    [ .mk 0 [] ["x"] [], .mk 1 [] [] [ .subgraph exSubgraph ] ]

/-- Two producers of "x" (identities 0 and 1) followed by a consumer of "x"
(identity 2). -/
def exGraphShadow : GraphProto :=
  .mk [] [] [] []
    [ .mk 0 [] ["x"] [], .mk 1 [] ["x"] [], .mk 2 ["x"] [] [] ]

/-- A consumer of "x" (identity 0) appearing BEFORE the producer of "x"
(identity 1). -/
def exGraphUseBeforeDef : GraphProto :=
  .mk [] [] [] []
    [ .mk 0 ["x"] [] [], .mk 1 [] ["x"] [] ]

/-- A graph with a single input "in" declared with shape [1, 3, 224, 224]. -/
def exGraphShape : GraphProto :=
  .mk [⟨"in", some ⟨some ⟨[.value 1, .value 3, .value 224, .value 224]⟩⟩⟩]
    [] [] [] []

/-- A graph whose input and an internal value info both use the symbolic
dimension "batch". -/
def exGraphBatch : GraphProto :=
  .mk [⟨"in", some ⟨some ⟨[.param "batch", .value 3]⟩⟩⟩] []
    [⟨"mid", some ⟨some ⟨[.param "batch", .param "other"]⟩⟩⟩] [] []

/-- A value info with a tensor type whose shape field is UNSET. -/
def exNoShape : ValueInfoProto := ⟨"v", some ⟨none⟩⟩

/-! ## Basic lemmas on the dict / set model -/

theorem natContains_iff (l : List Nat) (a : Nat) : l.contains a = true ↔ a ∈ l := by
  simp [List.contains, List.elem_eq_mem]

theorem strContains_iff (l : List String) (a : String) : l.contains a = true ↔ a ∈ l := by
  simp [List.contains, List.elem_eq_mem]

theorem dictFind_dictSet (m : DepMap) (k k' : Nat) (v : List Nat) :
    dictFind (dictSet m k v) k' = if k = k' then some v else dictFind m k' := by
  induction m with
  | nil => by_cases h : k = k' <;> simp [dictSet, dictFind, h]
  | cons a rest ih =>
      obtain ⟨ak, av⟩ := a
      by_cases h1 : ak = k
      · subst h1
        by_cases h2 : ak = k' <;> simp [dictSet, dictFind, h2]
      · by_cases h2 : ak = k'
        · subst h2
          have hne : k ≠ ak := fun h => h1 h.symm
          simp [dictSet, dictFind, h1, hne]
        · by_cases h3 : k = k'
          · subst h3
            simp [dictSet, dictFind, h1, h2, ih]
          · simp [dictSet, dictFind, h1, h2, h3, ih]

theorem dictGetD_dictSet (m : DepMap) (k k' : Nat) (v : List Nat) :
    dictGetD (dictSet m k v) k' = if k = k' then v else dictGetD m k' := by
  rw [dictGetD, dictFind_dictSet]
  by_cases h : k = k' <;> simp [h, dictGetD]

theorem dictFind_none_of_contains_false {m : DepMap} {k : Nat}
    (h : dictContains m k = false) : dictFind m k = none := by
  cases hf : dictFind m k with
  | none => rfl
  | some s => rw [dictContains, hf] at h; simp at h

theorem dictGetD_dictEnsure (m : DepMap) (k k' : Nat) :
    dictGetD (dictEnsure m k) k' = dictGetD m k' := by
  rw [dictEnsure]
  split_ifs with h
  · rfl
  · rw [dictGetD, dictFind_dictSet]
    by_cases h2 : k = k'
    · subst h2
      rw [dictGetD, dictFind_none_of_contains_false (by simpa using h)]
      simp
    · simp [h2, dictGetD]

theorem dictFind_dictEnsure_ne (m : DepMap) {k k' : Nat} (h : k ≠ k') :
    dictFind (dictEnsure m k) k' = dictFind m k' := by
  rw [dictEnsure]
  split_ifs with hc
  · rfl
  · rw [dictFind_dictSet, if_neg h]

theorem setAdd_contains (s : List Nat) (x y : Nat) :
    (setAdd s x).contains y = true ↔ (s.contains y = true ∨ y = x) := by
  simp only [setAdd]
  split_ifs with h
  · simp only [natContains_iff] at h ⊢
    constructor
    · exact Or.inl
    · rintro (hy | rfl)
      · exact hy
      · exact h
  · simp only [natContains_iff]
    simp [List.mem_append]

theorem setAdd_ne_nil (s : List Nat) (x : Nat) : setAdd s x ≠ [] := by
  rw [setAdd]
  split_ifs with h
  · intro hnil
    subst hnil
    simp [List.contains] at h
  · simp

theorem prodFind_prodSet (p : ProdMap) (k k' : String) (v : Nat) :
    prodFind (prodSet p k v) k' = if k = k' then some v else prodFind p k' := by
  induction p with
  | nil => by_cases h : k = k' <;> simp [prodSet, prodFind, h]
  | cons a rest ih =>
      obtain ⟨ak, av⟩ := a
      by_cases h1 : ak = k
      · subst h1
        by_cases h2 : ak = k' <;> simp [prodSet, prodFind, h2]
      · by_cases h2 : ak = k'
        · subst h2
          have hne : k ≠ ak := fun h => h1 h.symm
          simp [prodSet, prodFind, h1, hne]
        · by_cases h3 : k = k'
          · subst h3
            simp [prodSet, prodFind, h1, h2, ih]
          · simp [prodSet, prodFind, h1, h2, h3, ih]

/-! ## The link primitive -/

theorem memEdge_link_ntp (m : Maps) (p c a b : Nat) :
    memEdge (_create_producer_consumer_link m p c).ntp a b = true ↔
      (memEdge m.ntp a b = true ∨ (a = c ∧ b = p)) := by
  rw [_create_producer_consumer_link]
  simp only [memEdge]
  rw [dictGetD_dictSet]
  by_cases hac : c = a
  · subst hac
    rw [if_pos rfl, setAdd_contains, dictGetD_dictEnsure]
    constructor
    · rintro (h | rfl)
      · exact Or.inl h
      · exact Or.inr ⟨rfl, rfl⟩
    · rintro (h | ⟨-, rfl⟩)
      · exact Or.inl h
      · exact Or.inr rfl
  · rw [if_neg hac, dictGetD_dictEnsure]
    constructor
    · exact Or.inl
    · rintro (h | ⟨rfl, -⟩)
      · exact h
      · exact absurd rfl hac

theorem memEdge_link_ntc (m : Maps) (p c a b : Nat) :
    memEdge (_create_producer_consumer_link m p c).ntc a b = true ↔
      (memEdge m.ntc a b = true ∨ (a = p ∧ b = c)) := by
  rw [_create_producer_consumer_link]
  simp only [memEdge]
  rw [dictGetD_dictSet]
  by_cases hap : p = a
  · subst hap
    rw [if_pos rfl, setAdd_contains, dictGetD_dictEnsure]
    constructor
    · rintro (h | rfl)
      · exact Or.inl h
      · exact Or.inr ⟨rfl, rfl⟩
    · rintro (h | ⟨-, rfl⟩)
      · exact Or.inl h
      · exact Or.inr rfl
  · rw [if_neg hap, dictGetD_dictEnsure]
    constructor
    · exact Or.inl
    · rintro (h | ⟨rfl, -⟩)
      · exact h
      · exact absurd rfl hap

theorem mirror_link {m : Maps} (h : Mirror m) (p c : Nat) :
    Mirror (_create_producer_consumer_link m p c) := by
  intro a b
  rw [memEdge_link_ntc, memEdge_link_ntp, h a b]
  constructor
  · rintro (hx | ⟨rfl, rfl⟩)
    · exact Or.inl hx
    · exact Or.inr ⟨rfl, rfl⟩
  · rintro (hx | ⟨rfl, rfl⟩)
    · exact Or.inl hx
    · exact Or.inr ⟨rfl, rfl⟩

theorem nemap_link_ntp {m : Maps} (h : NEmap m.ntp) (p c : Nat) :
    NEmap (_create_producer_consumer_link m p c).ntp := by
  intro k s hf
  rw [_create_producer_consumer_link] at hf
  simp only at hf
  rw [dictFind_dictSet] at hf
  by_cases hk : c = k
  · rw [if_pos hk] at hf
    cases hf
    exact setAdd_ne_nil _ _
  · rw [if_neg hk, dictFind_dictEnsure_ne _ hk] at hf
    exact h k s hf

theorem nemap_link_ntc {m : Maps} (h : NEmap m.ntc) (p c : Nat) :
    NEmap (_create_producer_consumer_link m p c).ntc := by
  intro k s hf
  rw [_create_producer_consumer_link] at hf
  simp only at hf
  rw [dictFind_dictSet] at hf
  by_cases hk : p = k
  · rw [if_pos hk] at hf
    cases hf
    exact setAdd_ne_nil _ _
  · rw [if_neg hk, dictFind_dictEnsure_ne _ hk] at hf
    exact h k s hf

theorem good_link {m : Maps} (h : GoodMaps m) (p c : Nat) :
    GoodMaps (_create_producer_consumer_link m p c) :=
  ⟨mirror_link h.1 p c, nemap_link_ntp h.2.1 p c, nemap_link_ntc h.2.2 p c⟩

theorem mapsLE_refl (m : Maps) : MapsLE m m :=
  ⟨fun _ _ h => h, fun _ _ h => h⟩

theorem mapsLE_trans {m1 m2 m3 : Maps} (h1 : MapsLE m1 m2) (h2 : MapsLE m2 m3) :
    MapsLE m1 m3 :=
  ⟨fun a b h => h2.1 a b (h1.1 a b h), fun a b h => h2.2 a b (h1.2 a b h)⟩

theorem mapsLE_link (m : Maps) (p c : Nat) :
    MapsLE m (_create_producer_consumer_link m p c) :=
  ⟨fun a b h => (memEdge_link_ntp m p c a b).2 (Or.inl h),
   fun a b h => (memEdge_link_ntc m p c a b).2 (Or.inl h)⟩

/-- Outside the consumer's key, the link primitive leaves the
`node_to_producers` map untouched. -/
theorem link_ntp_getD_ne (m : Maps) (p c k : Nat) (h : c ≠ k) :
    dictGetD (_create_producer_consumer_link m p c).ntp k = dictGetD m.ntp k := by
  rw [_create_producer_consumer_link]
  simp only
  rw [dictGetD_dictSet, if_neg h, dictGetD_dictEnsure]

/-! ## The input-processing loop -/

theorem strSetAdd_contains (s : List String) (x y : String) :
    (strSetAdd s x).contains y = true ↔ (s.contains y = true ∨ y = x) := by
  simp only [strSetAdd]
  split_ifs with h
  · simp only [strContains_iff] at h ⊢
    constructor
    · exact Or.inl
    · rintro (hy | rfl)
      · exact hy
      · exact h
  · simp only [strContains_iff]
    simp [List.mem_append]

theorem prodFind_mem_prodVals {p : ProdMap} {i : String} {v : Nat}
    (h : prodFind p i = some v) : v ∈ prodVals p := by
  induction p with
  | nil => simp [prodFind] at h
  | cons a rest ih =>
      obtain ⟨ak, av⟩ := a
      rw [prodFind] at h
      by_cases hk : ak = i
      · rw [if_pos hk] at h
        cases h
        simp [prodVals]
      · rw [if_neg hk] at h
        simp [prodVals]
        exact Or.inr (by simpa [prodVals] using ih h)

theorem good_processInputs (gin ginit : List String) (prod : ProdMap) (nid : Nat)
    (ins impl : List String) (m : Maps) (h : GoodMaps m) :
    GoodMaps (processInputs gin ginit prod nid ins impl m).1 := by
  induction ins generalizing impl m with
  | nil => simpa [processInputs] using h
  | cons i rest ih =>
      simp only [processInputs]
      split_ifs with h1 h2
      · exact ih impl m h
      · cases hp : prodFind prod i with
        | none => simpa [hp] using ih impl m h
        | some producer => simpa [hp] using ih impl _ (good_link h producer nid)
      · exact ih _ m h

theorem mapsLE_processInputs (gin ginit : List String) (prod : ProdMap) (nid : Nat)
    (ins impl : List String) (m : Maps) :
    MapsLE m (processInputs gin ginit prod nid ins impl m).1 := by
  induction ins generalizing impl m with
  | nil => simpa [processInputs] using mapsLE_refl m
  | cons i rest ih =>
      simp only [processInputs]
      split_ifs with h1 h2
      · exact ih impl m
      · cases hp : prodFind prod i with
        | none => simpa [hp] using ih impl m
        | some producer =>
            simpa [hp] using mapsLE_trans (mapsLE_link m producer nid) (ih impl _)
      · exact ih _ m

/-- The implicit-input set produced by the input loop does not depend on the
state of the dependency maps. -/
theorem processInputs_snd_indep (gin ginit : List String) (prod : ProdMap) (nid : Nat)
    (ins impl : List String) (m m' : Maps) :
    (processInputs gin ginit prod nid ins impl m).2 =
      (processInputs gin ginit prod nid ins impl m').2 := by
  induction ins generalizing impl m m' with
  | nil => simp [processInputs]
  | cons i rest ih =>
      simp only [processInputs]
      split_ifs with h1 h2
      · exact ih impl m m'
      · cases hp : prodFind prod i with
        | none => simpa [hp] using ih impl m m'
        | some producer => simpa [hp] using ih impl _ _
      · exact ih _ m m'

/-- Elements of the implicit-input set survive the input loop. -/
theorem processInputs_impl_mono (gin ginit : List String) (prod : ProdMap) (nid : Nat)
    (ins impl : List String) (m : Maps) {x : String}
    (hx : impl.contains x = true) :
    (processInputs gin ginit prod nid ins impl m).2.contains x = true := by
  induction ins generalizing impl m with
  | nil => simpa [processInputs] using hx
  | cons i rest ih =>
      simp only [processInputs]
      split_ifs with h1 h2
      · exact ih impl m hx
      · cases hp : prodFind prod i with
        | none => simpa [hp] using ih impl m hx
        | some producer => simpa [hp] using ih impl _ hx
      · exact ih _ m ((strSetAdd_contains impl i x).2 (Or.inl hx))

/-- A non-empty input name that is not locally resolvable is recorded in the
implicit-input set. -/
theorem processInputs_adds_nonlocal (gin ginit : List String) (prod : ProdMap)
    (nid : Nat) (ins impl : List String) (m : Maps) {x : String}
    (hx : x ∈ ins) (hne : x ≠ "")
    (hnl : is_local_value prod ginit gin x = false) :
    (processInputs gin ginit prod nid ins impl m).2.contains x = true := by
  induction ins generalizing impl m with
  | nil => cases hx
  | cons i rest ih =>
      simp only [processInputs]
      rcases List.mem_cons.1 hx with rfl | hx'
      · rw [if_neg hne, hnl]
        simp only [Bool.false_eq_true, if_false]
        exact processInputs_impl_mono _ _ _ _ _ _ _
          ((strSetAdd_contains impl x x).2 (Or.inr rfl))
      · split_ifs with h1 h2
        · exact ih impl m hx'
        · cases hp : prodFind prod i with
          | none => simpa [hp] using ih impl m hx'
          | some producer => simpa [hp] using ih impl _ hx'
        · exact ih _ m hx'

theorem strSetAdd_contains_ne (s : List String) (x : String) {y : String}
    (h : y ≠ x) : (strSetAdd s x).contains y = s.contains y := by
  cases hy : s.contains y with
  | false =>
      cases hz : (strSetAdd s x).contains y with
      | false => rfl
      | true =>
          rcases (strSetAdd_contains s x y).1 hz with h' | rfl
          · rw [hy] at h'
            cases h'
          · exact absurd rfl h
  | true => exact (strSetAdd_contains s x y).2 (Or.inl hy)

/-- A locally resolvable name is never added to the implicit-input set. -/
theorem processInputs_impl_local (gin ginit : List String) (prod : ProdMap)
    (nid : Nat) (ins impl : List String) (m : Maps) {x : String}
    (hl : is_local_value prod ginit gin x = true) :
    (processInputs gin ginit prod nid ins impl m).2.contains x = impl.contains x := by
  induction ins generalizing impl m with
  | nil => simp [processInputs]
  | cons i rest ih =>
      simp only [processInputs]
      split_ifs with h1 h2
      · exact ih impl m
      · cases hp : prodFind prod i with
        | none => simpa [hp] using ih impl m
        | some producer => simpa [hp] using ih impl _
      · have hxi : x ≠ i := fun he => h2 (he ▸ hl)
        rw [ih _ m, strSetAdd_contains_ne impl i hxi]

/-- Every name the input loop adds to the implicit set is non-empty and not
locally resolvable. -/
theorem processInputs_impl_new (gin ginit : List String) (prod : ProdMap)
    (nid : Nat) (ins impl : List String) (m : Maps) {x : String}
    (hx : (processInputs gin ginit prod nid ins impl m).2.contains x = true) :
    impl.contains x = true ∨
      (x ≠ "" ∧ is_local_value prod ginit gin x = false ∧ x ∈ ins) := by
  induction ins generalizing impl m with
  | nil => exact Or.inl (by simpa [processInputs] using hx)
  | cons i rest ih =>
      rw [processInputs] at hx
      by_cases h1 : i = ""
      · rw [if_pos h1] at hx
        rcases ih impl m hx with h | ⟨a, b, c⟩
        · exact Or.inl h
        · exact Or.inr ⟨a, b, List.mem_cons_of_mem _ c⟩
      · rw [if_neg h1] at hx
        by_cases h2 : is_local_value prod ginit gin i = true
        · rw [if_pos h2] at hx
          cases hp : prodFind prod i with
          | none =>
              rw [hp] at hx
              rcases ih impl m hx with h | ⟨a, b, c⟩
              · exact Or.inl h
              · exact Or.inr ⟨a, b, List.mem_cons_of_mem _ c⟩
          | some producer =>
              rw [hp] at hx
              rcases ih impl _ hx with h | ⟨a, b, c⟩
              · exact Or.inl h
              · exact Or.inr ⟨a, b, List.mem_cons_of_mem _ c⟩
        · rw [if_neg h2] at hx
          rcases ih _ m hx with h | ⟨a, b, c⟩
          · rcases (strSetAdd_contains impl i x).1 h with h' | rfl
            · exact Or.inl h'
            · exact Or.inr ⟨h1, by simpa using h2, List.mem_cons_self _ _⟩
          · exact Or.inr ⟨a, b, List.mem_cons_of_mem _ c⟩

/-! ## Invariants preserved by the whole analysis -/

mutual
theorem good_mapG : ∀ (g : GraphProto) (m : Maps), GoodMaps m →
    GoodMaps (_map_node_dependencies g m).1
  | .mk inp _out _vi ini nodes, m, h => by
      rw [_map_node_dependencies]
      exact good_mapNodes (namesOf inp) ini nodes [] [] m h

theorem good_mapNodes : ∀ (gin ginit : List String) (nodes : List NodeProto)
    (prod : ProdMap) (impl : List String) (m : Maps), GoodMaps m →
    GoodMaps (mapNodes gin ginit nodes prod impl m).1
  | _, _, [], _, _, _, h => h
  | gin, ginit, .mk nid nin nout nattrs :: rest, prod, impl, m, h =>
      good_mapNodes gin ginit rest _ _ _
        (good_processInputs gin ginit prod nid _ impl _
          (good_mapAttrs nattrs m nin h))

theorem good_mapAttrs : ∀ (attrs : List AttrProto) (m : Maps) (ins : List String),
    GoodMaps m → GoodMaps (mapAttrs attrs m ins).1
  | [], _, _, h => h
  | .scalar :: rest, m, ins, h => good_mapAttrs rest m ins h
  | .subgraph sg :: rest, m, ins, h => good_mapAttrs rest _ _ (good_mapG sg m h)
end

mutual
theorem mapsLE_mapG : ∀ (g : GraphProto) (m : Maps),
    MapsLE m (_map_node_dependencies g m).1
  | .mk inp _out _vi ini nodes, m => by
      rw [_map_node_dependencies]
      exact mapsLE_mapNodes (namesOf inp) ini nodes [] [] m

theorem mapsLE_mapNodes : ∀ (gin ginit : List String) (nodes : List NodeProto)
    (prod : ProdMap) (impl : List String) (m : Maps),
    MapsLE m (mapNodes gin ginit nodes prod impl m).1
  | _, _, [], _, _, m => mapsLE_refl m
  | gin, ginit, .mk nid nin _nout nattrs :: rest, prod, impl, m =>
      mapsLE_trans (mapsLE_mapAttrs nattrs m nin)
        (mapsLE_trans (mapsLE_processInputs gin ginit prod nid _ impl _)
          (mapsLE_mapNodes gin ginit rest _ _ _))

theorem mapsLE_mapAttrs : ∀ (attrs : List AttrProto) (m : Maps) (ins : List String),
    MapsLE m (mapAttrs attrs m ins).1
  | [], m, _ => mapsLE_refl m
  | .scalar :: rest, m, ins => mapsLE_mapAttrs rest m ins
  | .subgraph sg :: rest, m, _ =>
      mapsLE_trans (mapsLE_mapG sg m) (mapsLE_mapAttrs rest _ _)
end

mutual
theorem mapG_snd_indep : ∀ (g : GraphProto) (m m' : Maps),
    (_map_node_dependencies g m).2 = (_map_node_dependencies g m').2
  | .mk inp _out _vi ini nodes, m, m' => by
      rw [_map_node_dependencies, _map_node_dependencies]
      exact mapNodes_snd_indep (namesOf inp) ini nodes [] [] m m'

theorem mapNodes_snd_indep : ∀ (gin ginit : List String) (nodes : List NodeProto)
    (prod : ProdMap) (impl : List String) (m m' : Maps),
    (mapNodes gin ginit nodes prod impl m).2 = (mapNodes gin ginit nodes prod impl m').2
  | _, _, [], _, _, _, _ => rfl
  | gin, ginit, .mk nid nin _nout nattrs :: rest, prod, impl, m, m' => by
      simp only [mapNodes]
      rw [mapAttrs_snd_indep nattrs m m' nin,
          processInputs_snd_indep gin ginit prod nid (mapAttrs nattrs m' nin).2 impl
            (mapAttrs nattrs m nin).1 (mapAttrs nattrs m' nin).1]
      exact mapNodes_snd_indep gin ginit rest _ _ _ _

theorem mapAttrs_snd_indep : ∀ (attrs : List AttrProto) (m m' : Maps)
    (ins : List String),
    (mapAttrs attrs m ins).2 = (mapAttrs attrs m' ins).2
  | [], _, _, _ => rfl
  | .scalar :: rest, m, m', ins => mapAttrs_snd_indep rest m m' ins
  | .subgraph sg :: rest, m, m', ins => by
      simp only [mapAttrs]
      rw [mapG_snd_indep sg m m']
      exact mapAttrs_snd_indep rest _ _ _
end

/-- The input loop touches `node_to_producers` only at the consumer's key. -/
theorem processInputs_ntp_frozen (gin ginit : List String) (prod : ProdMap)
    (nid : Nat) (ins impl : List String) (m : Maps) {c : Nat} (hc : c ≠ nid) :
    dictGetD (processInputs gin ginit prod nid ins impl m).1.ntp c =
      dictGetD m.ntp c := by
  induction ins generalizing impl m with
  | nil => simp [processInputs]
  | cons i rest ih =>
      simp only [processInputs]
      split_ifs with h1 h2
      · exact ih impl m
      · cases hp : prodFind prod i with
        | none => simpa [hp] using ih impl m
        | some producer =>
            simp only [hp]
            rw [ih impl _, link_ntp_getD_ne m producer nid c (fun h => hc h.symm)]
      · exact ih _ m

mutual
theorem frozen_mapG : ∀ (g : GraphProto) (m : Maps) {c : Nat},
    c ∉ allIdsG g → dictGetD (_map_node_dependencies g m).1.ntp c = dictGetD m.ntp c
  | .mk inp _out _vi ini nodes, m, c, hc => by
      rw [_map_node_dependencies]
      exact frozen_mapNodes (namesOf inp) ini nodes [] [] m (by simpa [allIdsG] using hc)

theorem frozen_mapNodes : ∀ (gin ginit : List String) (nodes : List NodeProto)
    (prod : ProdMap) (impl : List String) (m : Maps) {c : Nat},
    c ∉ allIdsNodes nodes →
    dictGetD (mapNodes gin ginit nodes prod impl m).1.ntp c = dictGetD m.ntp c
  | _, _, [], _, _, _, _, _ => rfl
  | gin, ginit, .mk nid nin _nout nattrs :: rest, prod, impl, m, c, hc => by
      rw [allIdsNodes] at hc
      simp only [List.mem_cons, List.mem_append] at hc
      push_neg at hc
      obtain ⟨hc1, hc2, hc3⟩ := hc
      simp only [mapNodes]
      rw [frozen_mapNodes gin ginit rest _ _ _ hc3,
          processInputs_ntp_frozen gin ginit prod nid _ impl _ hc1,
          frozen_mapAttrs nattrs m nin hc2]

theorem frozen_mapAttrs : ∀ (attrs : List AttrProto) (m : Maps) (ins : List String)
    {c : Nat}, c ∉ allIdsAttrs attrs →
    dictGetD (mapAttrs attrs m ins).1.ntp c = dictGetD m.ntp c
  | [], _, _, _, _ => rfl
  | .scalar :: rest, m, ins, c, hc =>
      frozen_mapAttrs rest m ins (by simpa [allIdsAttrs] using hc)
  | .subgraph sg :: rest, m, ins, c, hc => by
      rw [allIdsAttrs] at hc
      simp only [List.mem_append] at hc
      push_neg at hc
      simp only [mapAttrs]
      rw [frozen_mapAttrs rest _ _ hc.2, frozen_mapG sg m hc.1]
end

/-! ## Edge provenance and creation in the input loop -/

/-- Any edge present after the input loop was either already there, or links
the processed node to a producer recorded in the scope-local dict. -/
theorem processInputs_ntp_new (gin ginit : List String) (prod : ProdMap)
    (nid : Nat) (ins impl : List String) (m : Maps) {k p : Nat}
    (h : memEdge (processInputs gin ginit prod nid ins impl m).1.ntp k p = true) :
    memEdge m.ntp k p = true ∨ (k = nid ∧ p ∈ prodVals prod) := by
  induction ins generalizing impl m with
  | nil => exact Or.inl (by simpa [processInputs] using h)
  | cons i rest ih =>
      rw [processInputs] at h
      split_ifs at h with h1 h2
      · exact ih impl m h
      · cases hp : prodFind prod i with
        | none =>
            rw [hp] at h
            exact ih impl m h
        | some producer =>
            rw [hp] at h
            rcases ih impl _ h with h' | h'
            · rcases (memEdge_link_ntp m producer nid k p).1 h' with h'' | ⟨rfl, rfl⟩
              · exact Or.inl h''
              · exact Or.inr ⟨rfl, prodFind_mem_prodVals hp⟩
            · exact Or.inr h'
      · exact ih _ m h

/-- Processing an input that resolves to a recorded producer creates the
corresponding edge. -/
theorem processInputs_creates_edge (gin ginit : List String) (prod : ProdMap)
    (nid : Nat) (ins impl : List String) (m : Maps) {x : String} {pid : Nat}
    (hx : x ∈ ins) (hne : x ≠ "") (hp : prodFind prod x = some pid) :
    memEdge (processInputs gin ginit prod nid ins impl m).1.ntp nid pid = true := by
  induction ins generalizing impl m with
  | nil => cases hx
  | cons i rest ih =>
      simp only [processInputs]
      rcases List.mem_cons.1 hx with rfl | hx'
      · rw [if_neg hne]
        have hloc : is_local_value prod ginit gin x = true := by
          rw [is_local_value, hp]
          simp
        rw [if_pos hloc, hp]
        exact (mapsLE_processInputs gin ginit prod nid rest impl _).1 nid pid
          ((memEdge_link_ntp m pid nid nid pid).2 (Or.inr ⟨rfl, rfl⟩))
      · split_ifs with h1 h2
        · exact ih impl m hx'
        · cases hq : prodFind prod i with
          | none => simpa [hq] using ih impl m hx'
          | some producer => simpa [hq] using ih impl _ hx'
        · exact ih _ m hx'

/-! ## The scope-local producers dict -/

theorem prodFind_recordOutputs_not_mem (prod : ProdMap) (outs : List String)
    (nid : Nat) {x : String} (hx : x ∉ outs) :
    prodFind (recordOutputs prod outs nid) x = prodFind prod x := by
  induction outs generalizing prod with
  | nil => rfl
  | cons o rest ih =>
      rw [recordOutputs]
      have hxo : o ≠ x := fun h => hx (h ▸ List.mem_cons_self o rest)
      rw [ih _ (fun h => hx (List.mem_cons_of_mem _ h)), prodFind_prodSet, if_neg hxo]

theorem prodFind_recordOutputs_mem (prod : ProdMap) (outs : List String)
    (nid : Nat) {x : String} (hx : x ∈ outs) :
    prodFind (recordOutputs prod outs nid) x = some nid := by
  induction outs generalizing prod with
  | nil => cases hx
  | cons o rest ih =>
      rw [recordOutputs]
      by_cases hr : x ∈ rest
      · exact ih _ hr
      · rcases List.mem_cons.1 hx with rfl | hx'
        · rw [prodFind_recordOutputs_not_mem _ _ _ hr, prodFind_prodSet, if_pos rfl]
        · exact absurd hx' hr

theorem prodFind_recordOutputs_isSome (prod : ProdMap) (outs : List String)
    (nid : Nat) {x : String} (hx : (prodFind prod x).isSome = true) :
    (prodFind (recordOutputs prod outs nid) x).isSome = true := by
  by_cases hm : x ∈ outs
  · rw [prodFind_recordOutputs_mem _ _ _ hm]
    rfl
  · rw [prodFind_recordOutputs_not_mem _ _ _ hm]
    exact hx

theorem prodVals_prodSet_subset (prod : ProdMap) (k : String) (v : Nat) {b : Nat}
    (hb : b ∈ prodVals (prodSet prod k v)) : b ∈ prodVals prod ∨ b = v := by
  induction prod with
  | nil => simpa [prodSet, prodVals] using hb
  | cons a rest ih =>
      obtain ⟨ak, av⟩ := a
      rw [prodSet] at hb
      split_ifs at hb with h1
      · simp only [prodVals, List.map_cons, List.mem_cons] at hb ⊢
        rcases hb with rfl | hb
        · exact Or.inr rfl
        · exact Or.inl (Or.inr hb)
      · simp only [prodVals, List.map_cons, List.mem_cons] at hb ⊢
        rcases hb with rfl | hb
        · exact Or.inl (Or.inl rfl)
        · rcases ih (by simpa [prodVals] using hb) with h | h
          · exact Or.inl (Or.inr (by simpa [prodVals] using h))
          · exact Or.inr h

theorem prodVals_recordOutputs_subset (prod : ProdMap) (outs : List String)
    (nid : Nat) {b : Nat} (hb : b ∈ prodVals (recordOutputs prod outs nid)) :
    b ∈ prodVals prod ∨ b = nid := by
  induction outs generalizing prod with
  | nil => exact Or.inl hb
  | cons o rest ih =>
      rw [recordOutputs] at hb
      rcases ih _ hb with h | h
      · rcases prodVals_prodSet_subset prod o nid h with h' | h'
        · exact Or.inl h'
        · exact Or.inr h'
      · exact Or.inr h

theorem producersAfter_append (l1 l2 : List NodeProto) (prod : ProdMap) :
    producersAfter (l1 ++ l2) prod = producersAfter l2 (producersAfter l1 prod) := by
  induction l1 generalizing prod with
  | nil => rfl
  | cons n rest ih =>
      obtain ⟨nid, nin, nout, nattrs⟩ := n
      rw [List.cons_append, producersAfter, producersAfter, ih]

theorem prodFind_producersAfter_not_out (nodes : List NodeProto) (prod : ProdMap)
    {x : String} (hx : ∀ n ∈ nodes, x ∉ n.output) :
    prodFind (producersAfter nodes prod) x = prodFind prod x := by
  induction nodes generalizing prod with
  | nil => rfl
  | cons n rest ih =>
      obtain ⟨nid, nin, nout, nattrs⟩ := n
      rw [producersAfter, ih _ (fun k hk => hx k (List.mem_cons_of_mem _ hk)),
          prodFind_recordOutputs_not_mem]
      exact hx _ (List.mem_cons_self _ _)

theorem prodVals_producersAfter_subset (nodes : List NodeProto) (prod : ProdMap)
    {b : Nat} (hb : b ∈ prodVals (producersAfter nodes prod)) :
    b ∈ prodVals prod ∨ b ∈ topIds nodes := by
  induction nodes generalizing prod with
  | nil => exact Or.inl hb
  | cons n rest ih =>
      obtain ⟨nid, nin, nout, nattrs⟩ := n
      rw [producersAfter] at hb
      rcases ih _ hb with h | h
      · rcases prodVals_recordOutputs_subset prod nout nid h with h' | rfl
        · exact Or.inl h'
        · exact Or.inr (by simp [topIds, NodeProto.nid])
      · exact Or.inr (by simp [topIds]; exact Or.inr (by simpa [topIds] using h))

theorem prodFind_producersAfter_isSome (nodes : List NodeProto) (prod : ProdMap)
    {x : String} (hx : (prodFind prod x).isSome = true) :
    (prodFind (producersAfter nodes prod) x).isSome = true := by
  induction nodes generalizing prod with
  | nil => exact hx
  | cons n rest ih =>
      obtain ⟨nid, nin, nout, nattrs⟩ := n
      rw [producersAfter]
      exact ih _ (prodFind_recordOutputs_isSome _ _ _ hx)

/-- The last producer of `x` before a given point wins: nodes after it that do
not produce `x` leave its binding alone. -/
theorem prodFind_producersAfter_last (l1 : List NodeProto) (n : NodeProto)
    (l2 : List NodeProto) (prod : ProdMap) {x : String} (hx : x ∈ n.output)
    (hl2 : ∀ k ∈ l2, x ∉ k.output) :
    prodFind (producersAfter (l1 ++ n :: l2) prod) x = some n.nid := by
  obtain ⟨nid, nin, nout, nattrs⟩ := n
  rw [producersAfter_append, producersAfter,
      prodFind_producersAfter_not_out _ _ hl2, prodFind_recordOutputs_mem]
  · rfl
  · exact hx

/-! ## Decomposition of the node loop -/

theorem mapNodes_append (gin ginit : List String) (l1 l2 : List NodeProto)
    (prod : ProdMap) (impl : List String) (m : Maps) :
    mapNodes gin ginit (l1 ++ l2) prod impl m =
      mapNodes gin ginit l2 (producersAfter l1 prod)
        (mapNodes gin ginit l1 prod impl m).2 (mapNodes gin ginit l1 prod impl m).1 := by
  induction l1 generalizing prod impl m with
  | nil => rfl
  | cons n rest ih =>
      obtain ⟨nid, nin, nout, nattrs⟩ := n
      rw [List.cons_append]
      simp only [mapNodes, producersAfter]
      rw [ih]

/-! ## The effective input list built by the attribute loop -/

theorem mapAttrs_snd_eq (attrs : List AttrProto) (m : Maps) (ins : List String) :
    (mapAttrs attrs m ins).2 = ins ++ (mapAttrs attrs m []).2 := by
  induction attrs generalizing m ins with
  | nil => simp [mapAttrs]
  | cons a rest ih =>
      cases a with
      | scalar => simp only [mapAttrs]; exact ih m ins
      | subgraph sg =>
          simp only [mapAttrs]
          rw [ih _ (ins ++ (_map_node_dependencies sg m).2),
              ih _ (List.nil ++ (_map_node_dependencies sg m).2)]
          simp

theorem mapAttrs_snd_mem_of_mem (attrs : List AttrProto) (m : Maps)
    (ins : List String) {x : String} (hx : x ∈ ins) :
    x ∈ (mapAttrs attrs m ins).2 := by
  rw [mapAttrs_snd_eq]
  exact List.mem_append_left _ hx

theorem mapAttrs_snd_mem_of_subgraph (attrs : List AttrProto) (m : Maps)
    (ins : List String) {sg : GraphProto} {x : String}
    (hsg : AttrProto.subgraph sg ∈ attrs) (hx : x ∈ scopeImplicit sg) :
    x ∈ (mapAttrs attrs m ins).2 := by
  induction attrs generalizing m ins with
  | nil => cases hsg
  | cons a rest ih =>
      cases a with
      | scalar =>
          simp only [mapAttrs]
          rcases List.mem_cons.1 hsg with h | h
          · cases h
          · exact ih m ins h
      | subgraph sg' =>
          simp only [mapAttrs]
          rcases List.mem_cons.1 hsg with h | h
          · cases h
            rw [mapAttrs_snd_eq]
            refine List.mem_append_left _ (List.mem_append_right _ ?_)
            rw [scopeImplicit] at hx
            rw [mapG_snd_indep sg m ⟨[], []⟩]
            exact hx
          · exact ih _ _ h

/-! ## Implicit-input behaviour of the node loop -/

theorem mapNodes_impl_mono (gin ginit : List String) (nodes : List NodeProto)
    (prod : ProdMap) (impl : List String) (m : Maps) {x : String}
    (hx : impl.contains x = true) :
    (mapNodes gin ginit nodes prod impl m).2.contains x = true := by
  induction nodes generalizing prod impl m with
  | nil => simpa [mapNodes] using hx
  | cons n rest ih =>
      obtain ⟨nid, nin, nout, nattrs⟩ := n
      simp only [mapNodes]
      exact ih _ _ _ (processInputs_impl_mono _ _ _ _ _ _ _ hx)

theorem mapNodes_impl_local (gin ginit : List String) (nodes : List NodeProto)
    (prod : ProdMap) (impl : List String) (m : Maps) {x : String}
    (hk : (prodFind prod x).isSome = true) :
    (mapNodes gin ginit nodes prod impl m).2.contains x = impl.contains x := by
  induction nodes generalizing prod impl m with
  | nil => simp [mapNodes]
  | cons n rest ih =>
      obtain ⟨nid, nin, nout, nattrs⟩ := n
      simp only [mapNodes]
      rw [ih _ _ _ (prodFind_recordOutputs_isSome _ _ _ hk)]
      apply processInputs_impl_local
      rw [is_local_value, hk]
      simp

theorem mapNodes_impl_new (gin ginit : List String) (nodes : List NodeProto)
    (prod : ProdMap) (impl : List String) (m : Maps) {s : String}
    (h : (mapNodes gin ginit nodes prod impl m).2.contains s = true) :
    impl.contains s = true ∨
      (s ≠ "" ∧ ginit.contains s = false ∧ gin.contains s = false) := by
  induction nodes generalizing prod impl m with
  | nil => exact Or.inl (by simpa [mapNodes] using h)
  | cons n rest ih =>
      obtain ⟨nid, nin, nout, nattrs⟩ := n
      rw [mapNodes] at h
      rcases ih _ _ _ h with h' | hP
      · rcases processInputs_impl_new _ _ _ _ _ _ _ h' with h'' | ⟨a, b, _⟩
        · exact Or.inl h''
        · rw [is_local_value] at b
          simp only [Bool.or_eq_false_iff] at b
          exact Or.inr ⟨a, b.1.2, b.2⟩
      · exact Or.inr hP

theorem goodMaps_empty : GoodMaps ⟨[], []⟩ := by
  refine ⟨?_, ?_, ?_⟩
  · intro a b
    simp [memEdge, dictGetD, dictFind, List.contains]
  · intro k s h
    simp [dictFind] at h
  · intro k s h
    simp [dictFind] at h

/-! ## Alphabetical order on strings -/

theorem charListLe_trans : ∀ (a b c : List Char),
    charListLe a b = true → charListLe b c = true → charListLe a c = true
  | [], _, _, _, _ => rfl
  | _ :: _, [], _, h1, _ => by cases h1
  | _ :: _, _ :: _, [], _, h2 => by cases h2
  | a :: as, b :: bs, c :: cs, h1, h2 => by
      rw [charListLe] at h1 h2 ⊢
      split_ifs at h1 h2 ⊢ with hab hba hbc hcb hac hca
      all_goals first
        | rfl
        | omega
        | (exact charListLe_trans as bs cs h1 h2)
        | (cases h1)
        | (cases h2)

theorem charListLe_total : ∀ (a b : List Char),
    charListLe a b = true ∨ charListLe b a = true
  | [], _ => Or.inl rfl
  | _ :: _, [] => Or.inr rfl
  | a :: as, b :: bs => by
      rw [charListLe, charListLe]
      split_ifs with hab hba hba
      · exact Or.inl rfl
      · exact Or.inl rfl
      · exact Or.inr rfl
      · exact charListLe_total as bs

theorem strLe_trans (a b c : String) (h1 : strLe a b = true) (h2 : strLe b c = true) :
    strLe a c = true :=
  charListLe_trans a.data b.data c.data h1 h2

theorem strLe_total (a b : String) : strLe a b = true ∨ strLe b a = true :=
  charListLe_total a.data b.data

instance : IsTrans String (fun a b => strLe a b = true) :=
  ⟨strLe_trans⟩

instance : IsTotal String (fun a b => strLe a b = true) :=
  ⟨strLe_total⟩

theorem sortStrings_sorted (l : List String) :
    List.Sorted (fun a b => strLe a b = true) (sortStrings l) :=
  List.sorted_insertionSort _ l

theorem sortStrings_mem (l : List String) (x : String) :
    x ∈ sortStrings l ↔ x ∈ l :=
  List.mem_insertionSort _

/-! ## Claim C1: the mirror invariant -/

/-- C1: for every graph on which `get_producer_consumer_maps` succeeds, the
two returned maps mirror each other: for every pair of node identities
(a, b), b is in `node_to_consumers[a]` if and only if a is in
`node_to_producers[b]`. -/
theorem get_producer_consumer_maps_mirror (g : GraphProto) (tp tc : DepMap)
    (h : get_producer_consumer_maps g = .ok (tp, tc)) (a b : Nat) :
    memEdge tc a b = true ↔ memEdge tp b a = true := by
  simp only [get_producer_consumer_maps] at h
  split_ifs at h with he
  · have hg := (good_mapG g ⟨[], []⟩ goodMaps_empty).1
    injection h with h1
    rw [Prod.mk.injEq] at h1
    obtain ⟨h2, h3⟩ := h1
    rw [← h2, ← h3]
    exact hg a b

/-- Witness for C1: the mirror equivalence instantiated on the concrete maps
computed for `exGraphOK` at the pair (0, 1). -/
theorem get_producer_consumer_maps_mirror_witness :
    memEdge [(0, [1])] 0 1 = true ↔ memEdge [(1, [0])] 1 0 = true :=
  get_producer_consumer_maps_mirror exGraphOK [(1, [0])] [(0, [1])] rfl 0 1

/-! ## Claim C9: present keys hold non-empty sets -/

/-- C9: for every graph on which `get_producer_consumer_maps` succeeds, both
returned maps are partial: every key present in either map is bound to a
non-empty set (a node with no producer edge is absent from
`node_to_producers`, and likewise for consumers). -/
theorem get_producer_consumer_maps_nonempty_sets (g : GraphProto) (tp tc : DepMap)
    (h : get_producer_consumer_maps g = .ok (tp, tc)) (k : Nat) (s : List Nat) :
    (dictFind tp k = some s → s ≠ []) ∧ (dictFind tc k = some s → s ≠ []) := by
  simp only [get_producer_consumer_maps] at h
  split_ifs at h with he
  · have hg := good_mapG g ⟨[], []⟩ goodMaps_empty
    injection h with h1
    rw [Prod.mk.injEq] at h1
    obtain ⟨h2, h3⟩ := h1
    subst h2
    subst h3
    exact ⟨hg.2.1 k s, hg.2.2 k s⟩

/-- Witness for C9 at `exGraphOK`, key 1 of each map. -/
theorem get_producer_consumer_maps_nonempty_sets_witness :
    (dictFind [(1, [0])] 1 = some [0] → ([0] : List Nat) ≠ []) ∧
    (dictFind [(0, [1])] 1 = some [0] → ([0] : List Nat) ≠ []) :=
  get_producer_consumer_maps_nonempty_sets exGraphOK [(1, [0])] [(0, [1])] rfl 1 [0]

/-! ## Claim C2: the top-level structural error -/

/-- C2: `get_producer_consumer_maps` raises exactly when the root scope's
implicit-input set is non-empty, and the error lists every unresolved name
sorted alphabetically.  Moreover every reported name is non-empty, is not a
declared input of the root graph and is not one of its initializers. -/
theorem get_producer_consumer_maps_error_spec (g : GraphProto) :
    ((∃ e, get_producer_consumer_maps g = .error e) ↔ scopeImplicit g ≠ []) ∧
    (∀ l, get_producer_consumer_maps g = .error (.invalidModel l) →
      List.Sorted (fun a b => strLe a b = true) l ∧
      (∀ s, s ∈ l ↔ (scopeImplicit g).contains s = true) ∧
      (∀ s ∈ l, s ≠ "" ∧ (namesOf g.input).contains s = false ∧
        g.initializer.contains s = false)) := by
  constructor
  · simp only [get_producer_consumer_maps, scopeImplicit]
    cases he : (_map_node_dependencies g ⟨[], []⟩).2.isEmpty
    · rw [List.isEmpty_eq_false] at he
      simp [he]
    · rw [List.isEmpty_eq_true] at he
      simp [he]
  · intro l h
    simp only [get_producer_consumer_maps] at h
    split_ifs at h with he
    injection h with h1
    injection h1 with h2
    subst h2
    rw [List.isEmpty_eq_true] at he
    refine ⟨sortStrings_sorted _, ?_, ?_⟩
    · intro s
      exact (sortStrings_mem _ s).trans
        ((strContains_iff ((_map_node_dependencies g ⟨[], []⟩).2) s).symm)
    · intro s hs
      have hs2 : ((_map_node_dependencies g ⟨[], []⟩).2).contains s = true :=
        (strContains_iff _ s).2 ((sortStrings_mem _ s).1 hs)
      obtain ⟨inp, out, vi, ini, nodes⟩ := g
      rw [_map_node_dependencies] at hs2
      rcases mapNodes_impl_new _ _ _ _ _ _ hs2 with h' | hP
      · simp [List.contains] at h'
      · refine ⟨hP.1, ?_, ?_⟩
        · simpa [GraphProto.input] using hP.2.2
        · simpa [GraphProto.initializer] using hP.2.1

/-- Witness for C2 at `exGraphOwnerFirst`: the analysis fails, and the
reported list ["x"] is sorted. -/
theorem get_producer_consumer_maps_error_spec_witness :
    (∃ e, get_producer_consumer_maps exGraphOwnerFirst = .error e) ∧
    List.Sorted (fun a b => strLe a b = true) ["x"] :=
  ⟨(get_producer_consumer_maps_error_spec exGraphOwnerFirst).1.2 (by decide),
   ((get_producer_consumer_maps_error_spec exGraphOwnerFirst).2 ["x"] rfl).1⟩

/-! ## Claim C6: the fixed-size predicate on a tensor without a declared shape -/

/-- C6 (failing input): a value info whose type IS a tensor type but whose
`shape` field is unset.  The claim (and the function's own docstring) require
`false` — "a tensor, with a shape, where all dimensions have fixed values" —
but the code's `if shape:` tests the truthiness of a protobuf message object,
which is always true, so the unset shape behaves like a declared empty
(scalar) shape and the function returns `true`. -/
theorem is_fixed_size_tensor_no_shape : is_fixed_size_tensor exNoShape = true := rfl

/-! ## Claim C8: symbolic-dimension replacement -/

theorem replaceDim_eq_specFixDim (p : String) (v : Int) (d : Dim) :
    replaceDim p v d = specFixDim p v d := by
  cases d with
  | param s =>
      by_cases h : s = p <;> simp [replaceDim, specFixDim, h]
  | value n => simp [replaceDim, specFixDim]
  | unknown => simp [replaceDim, specFixDim]

theorem update_dim_values_eq_map (p : String) (v : Int) (vis : List ValueInfoProto) :
    update_dim_values p v vis = vis.map (specMapVi (specFixDim p v)) := by
  have hf : replaceDim p v = specFixDim p v := funext (replaceDim_eq_specFixDim p v)
  rw [update_dim_values, hf]
  apply List.map_congr_left
  intro vi _
  obtain ⟨nm, ty⟩ := vi
  cases ty <;> simp [specMapVi]

mutual
theorem fixGraph_eq_spec : ∀ (g : GraphProto) (p : String) (v : Int),
    fixGraph g p v = specMapGraph (specFixDim p v) g
  | .mk inp out vi ini nodes, p, v => by
      rw [fixGraph, specMapGraph, update_dim_values_eq_map, update_dim_values_eq_map,
          update_dim_values_eq_map, fixNodes_eq_spec nodes p v]

theorem fixNodes_eq_spec : ∀ (nodes : List NodeProto) (p : String) (v : Int),
    fixNodes nodes p v = specMapNodes (specFixDim p v) nodes
  | [], _, _ => rfl
  | .mk nid nin nout nattrs :: rest, p, v => by
      rw [fixNodes, specMapNodes, fixAttrs_eq_spec nattrs p v, fixNodes_eq_spec rest p v]

theorem fixAttrs_eq_spec : ∀ (attrs : List AttrProto) (p : String) (v : Int),
    fixAttrs attrs p v = specMapAttrs (specFixDim p v) attrs
  | [], _, _ => rfl
  | .scalar :: rest, p, v => by
      rw [fixAttrs, specMapAttrs, fixAttrs_eq_spec rest p v]
  | .subgraph sg :: rest, p, v => by
      rw [fixAttrs, specMapAttrs, fixGraph_eq_spec sg p v, fixAttrs_eq_spec rest p v]
end

/-- C8: fixing a named symbolic dimension rewrites exactly the matching
dimension entries of the declared inputs, outputs and intermediate value infos
of the graph and of every nested subgraph, and leaves everything else
unchanged: the source translation coincides with the spec-side pointwise
substitution, whose action on a single dimension is spelled out by the last
three conjuncts. -/
theorem make_dim_param_fixed_spec :
    (∀ (g : GraphProto) (p : String) (v : Int),
        _make_dim_param_fixed g p v = specMapGraph (specFixDim p v) g) ∧
    (∀ (p : String) (v : Int) (s : String),
        specFixDim p v (Dim.param s) = if s = p then Dim.value v else Dim.param s) ∧
    (∀ (p : String) (v : Int) (n : Int), specFixDim p v (Dim.value n) = Dim.value n) ∧
    (∀ (p : String) (v : Int), specFixDim p v Dim.unknown = Dim.unknown) := by
  refine ⟨fun g p v => fixGraph_eq_spec g p v, fun p v s => ?_, fun p v n => ?_, fun p v => ?_⟩
  · by_cases h : s = p <;> simp [specFixDim, h]
  · simp [specFixDim]
  · simp [specFixDim]

/-! ## Claim C7: errors raised when fixing an input shape -/

theorem lt_length_of_getElem?_eq_some {α : Type} {l : List α} {i : Nat} {a : α}
    (h : l[i]? = some a) : i < l.length := by
  by_contra hc
  push_neg at hc
  rw [List.getElem?_eq_none hc] at h
  cases h

/-- While the already-declared dimensions match the requested values, the
shape-fixing loop leaves the graph untouched and, on reaching the first
dimension whose fixed value conflicts, reports the 1-based dimension number
`j + 1`. -/
theorem fixShapeLoop_first_conflict : ∀ (d : Nat) (g : GraphProto) (pos : Nat)
    (fixed : List Int) (idx j : Nat) (v w : Int),
    j = idx + d →
    ((inputDimsAt g pos)[j]?) = some (.value v) →
    (fixed[j]?) = some w → v ≠ w →
    (∀ k, idx ≤ k → k < j →
      ∃ u, ((inputDimsAt g pos)[k]?) = some (.value u) ∧ (fixed[k]?) = some u) →
    fixShapeLoop g pos fixed idx ((inputDimsAt g pos).length - idx) =
      .error (.valueConflict v w (j + 1))
  | 0, g, pos, fixed, idx, j, v, w, hj, hdim, hfix, hvw, _hpre => by
      have hj' : j = idx := by omega
      subst hj'
      have hlt : j < (inputDimsAt g pos).length := lt_length_of_getElem?_eq_some hdim
      obtain ⟨f, hf⟩ : ∃ f, (inputDimsAt g pos).length - j = f + 1 :=
        ⟨(inputDimsAt g pos).length - j - 1, by omega⟩
      rw [hf, fixShapeLoop]
      simp only [hdim, hfix]
      rw [if_pos hvw]
  | d + 1, g, pos, fixed, idx, j, v, w, hj, hdim, hfix, hvw, hpre => by
      obtain ⟨u, hdu, hfu⟩ := hpre idx le_rfl (by omega)
      have hlt : idx < (inputDimsAt g pos).length := lt_length_of_getElem?_eq_some hdu
      obtain ⟨f, hf⟩ : ∃ f, (inputDimsAt g pos).length - idx = f + 1 :=
        ⟨(inputDimsAt g pos).length - idx - 1, by omega⟩
      rw [hf, fixShapeLoop]
      simp only [hdu, hfu]
      rw [if_neg (show ¬(u ≠ u) from fun hh => hh rfl)]
      have hrw : f = (inputDimsAt g pos).length - (idx + 1) := by omega
      rw [hrw]
      exact fixShapeLoop_first_conflict d g pos fixed (idx + 1) j v w (by omega)
        hdim hfix hvw (fun k hk1 hk2 => hpre k (by omega) hk2)

/-- C7 (counterexample): fixing an input declared [1, 3, 224, 224] to
[1, 3, 224, 225] raises a conflict that reports dimension 4 (the Python
message interpolates `idx + 1`), not the 0-based index 3 the claim states. -/
theorem make_input_shape_fixed_one_based :
    _make_input_shape_fixed exGraphShape "in" [1, 3, 224, 225]
      = .error (.valueConflict 224 225 4) ∧ (4 : Nat) ≠ 3 :=
  ⟨rfl, by decide⟩

/-- C7 (amended): when fixing a named graph input (found among the declared
inputs, with a tensor type), a requested shape of different rank fails with a
rank-mismatch error; and if the first mismatching declared dimension `j`
(0-based, all earlier dimensions being fixed values that match) holds a fixed
value different from the requested one, the operation fails with a conflict
error that reports the 1-based dimension number `j + 1`. -/
theorem make_input_shape_fixed_errors (g : GraphProto) (nm : String)
    (fixed_shape : List Int) (pos : Nat) (tt : TensorTypeProto)
    (hpos : findInputIdx g.input nm = some pos)
    (htt : (g.input[pos]?).bind ValueInfoProto.type = some tt) :
    ((getShape tt.shape).dim.length ≠ fixed_shape.length →
      _make_input_shape_fixed g nm fixed_shape =
        .error (.rankMismatch (getShape tt.shape).dim.length fixed_shape.length)) ∧
    (∀ (j : Nat) (v w : Int),
      (getShape tt.shape).dim.length = fixed_shape.length →
      ((getShape tt.shape).dim[j]?) = some (.value v) →
      (fixed_shape[j]?) = some w → v ≠ w →
      (∀ k, k < j → ∃ u, ((getShape tt.shape).dim[k]?) = some (.value u) ∧
        (fixed_shape[k]?) = some u) →
      _make_input_shape_fixed g nm fixed_shape = .error (.valueConflict v w (j + 1))) := by
  have hd : inputDimsAt g pos = (getShape tt.shape).dim := by
    rw [inputDimsAt, htt]
  constructor
  · intro hrank
    rw [_make_input_shape_fixed]
    simp only [hpos, htt]
    rw [if_pos hrank]
  · intro j v w hranks hdim hfix hvw hpre
    rw [_make_input_shape_fixed]
    simp only [hpos, htt]
    rw [if_neg (show ¬((getShape tt.shape).dim.length ≠ fixed_shape.length) from
      fun hh => hh hranks)]
    have := fixShapeLoop_first_conflict j g pos fixed_shape 0 j v w (by omega)
      (by rw [hd]; exact hdim) hfix hvw (fun k hk1 hk2 => by rw [hd]; exact hpre k hk2)
    rw [hd, Nat.sub_zero] at this
    exact this

/-- Witness for C7 at `exGraphShape`: a rank-3 request raises the rank
mismatch, and the [1, 3, 224, 225] request raises the conflict reporting
dimension 4. -/
theorem make_input_shape_fixed_errors_witness :
    _make_input_shape_fixed exGraphShape "in" [1, 3, 224] = .error (.rankMismatch 4 3) ∧
    _make_input_shape_fixed exGraphShape "in" [1, 3, 224, 225]
      = .error (.valueConflict 224 225 4) := by
  constructor
  · exact (make_input_shape_fixed_errors exGraphShape "in" [1, 3, 224] 0
      ⟨some ⟨[.value 1, .value 3, .value 224, .value 224]⟩⟩ rfl rfl).1 (by decide)
  · exact (make_input_shape_fixed_errors exGraphShape "in" [1, 3, 224, 225] 0
      ⟨some ⟨[.value 1, .value 3, .value 224, .value 224]⟩⟩ rfl rfl).2 3 224 225 rfl rfl
      rfl (by decide) (fun k hk => by interval_cases k <;> exact ⟨_, rfl, rfl⟩)

/-! ## Node identity bookkeeping -/

theorem allIdsNodes_append (l1 l2 : List NodeProto) :
    allIdsNodes (l1 ++ l2) = allIdsNodes l1 ++ allIdsNodes l2 := by
  induction l1 with
  | nil => rfl
  | cons n rest ih =>
      obtain ⟨nid, nin, nout, nattrs⟩ := n
      rw [List.cons_append, allIdsNodes, allIdsNodes, ih]
      simp [List.append_assoc]

theorem topIds_subset_allIds (nodes : List NodeProto) {x : Nat}
    (hx : x ∈ topIds nodes) : x ∈ allIdsNodes nodes := by
  induction nodes with
  | nil => cases hx
  | cons n rest ih =>
      obtain ⟨nid, nin, nout, nattrs⟩ := n
      rw [topIds, List.map_cons, List.mem_cons] at hx
      rw [allIdsNodes]
      rcases hx with rfl | hx'
      · exact List.mem_cons_self _ _
      · exact List.mem_cons_of_mem _ (List.mem_append_right _ (ih hx'))

/-- Every name in a scope's implicit-input set is non-empty and is neither an
initializer nor a declared input of that scope. -/
theorem scopeImplicit_props (sg : GraphProto) {x : String}
    (hx : (scopeImplicit sg).contains x = true) :
    x ≠ "" ∧ sg.initializer.contains x = false ∧
      (namesOf sg.input).contains x = false := by
  obtain ⟨inp, out, vi, ini, nodes⟩ := sg
  rw [scopeImplicit, _map_node_dependencies] at hx
  rcases mapNodes_impl_new _ _ _ _ _ _ hx with h | hP
  · simp [List.contains] at h
  · exact ⟨hP.1, by simpa [GraphProto.initializer] using hP.2.1,
      by simpa [GraphProto.input] using hP.2.2⟩

/-! ## Claim C3: resolution of closure-captured values across scopes -/

/-- C3 (counterexample): in `exGraphOwnerFirst` the only producer of "x"
(node 1) FOLLOWS the node owning the subgraph (node 0) in document order.
The value "x" is still returned as the implicit input of the subgraph's
analysis (first conjunct), but no dependency edge at all is created (both
maps stay empty) and "x" DOES appear in the implicit-input set the root scope
returns, so the analysis fails — refuting the claim as universally stated. -/
theorem nested_implicit_counterexample :
    scopeImplicit exSubgraph = ["x"] ∧
    (_map_node_dependencies exGraphOwnerFirst ⟨[], []⟩).2 = ["x"] ∧
    (_map_node_dependencies exGraphOwnerFirst ⟨[], []⟩).1.ntp = [] ∧
    (_map_node_dependencies exGraphOwnerFirst ⟨[], []⟩).1.ntc = [] ∧
    get_producer_consumer_maps exGraphOwnerFirst = .error (.invalidModel ["x"]) :=
  ⟨rfl, rfl, rfl, rfl, rfl⟩

/-- C3 (amended): if a nested subgraph of `owner` reports `x` as an implicit
input and `x` is produced in the enclosing scope by a node APPEARING BEFORE
`owner` (`pid` being the producer recorded for `x` at that point), then the
dependency edge links that enclosing-scope producer to the owning node; and
provided `x` was not already unresolved earlier in the enclosing scope, `x`
does not appear in the implicit-input set the enclosing scope returns. -/
theorem nested_implicit_resolution
    (inp out vi : List ValueInfoProto) (ini : List String)
    (pre rest : List NodeProto) (owner : NodeProto) (sg : GraphProto)
    (x : String) (pid : Nat)
    (hsub : AttrProto.subgraph sg ∈ owner.attrs)
    (hx : x ∈ scopeImplicit sg)
    (hprod : prodFind (producersAfter pre []) x = some pid)
    (hpre_impl : ((mapNodes (namesOf inp) ini pre [] [] ⟨[], []⟩).2).contains x
      = false) :
    memEdge (_map_node_dependencies
      (GraphProto.mk inp out vi ini (pre ++ owner :: rest)) ⟨[], []⟩).1.ntp
      owner.nid pid = true ∧
    ((_map_node_dependencies
      (GraphProto.mk inp out vi ini (pre ++ owner :: rest)) ⟨[], []⟩).2).contains x
      = false := by
  obtain ⟨oid, oin, oout, oattrs⟩ := owner
  simp only [NodeProto.attrs] at hsub
  simp only [NodeProto.nid]
  simp only [_map_node_dependencies]
  rw [mapNodes_append]
  simp only [mapNodes]
  have hsome : (prodFind (producersAfter pre []) x).isSome = true := by
    rw [hprod]
    rfl
  constructor
  · have hxc : (scopeImplicit sg).contains x = true := (strContains_iff _ x).2 hx
    have hne : x ≠ "" := (scopeImplicit_props sg hxc).1
    have hmem : x ∈ (mapAttrs oattrs
        (mapNodes (namesOf inp) ini pre [] [] ⟨[], []⟩).1 oin).2 :=
      mapAttrs_snd_mem_of_subgraph _ _ _ hsub hx
    exact (mapsLE_mapNodes (namesOf inp) ini rest _ _ _).1 oid pid
      (processInputs_creates_edge (namesOf inp) ini _ oid _ _ _ hmem hne hprod)
  · have hloc : is_local_value (producersAfter pre []) ini (namesOf inp) x = true := by
      rw [is_local_value, hprod]
      simp
    rw [mapNodes_impl_local _ _ rest _ _ _ (prodFind_recordOutputs_isSome _ _ _ hsome),
        processInputs_impl_local _ _ _ _ _ _ _ hloc, hpre_impl]

/-- Witness for C3 (amended) at `exGraphProducerFirst`: the edge from the
producing node 0 to the owning node 1 exists, and "x" is not in the root
scope's implicit-input set. -/
theorem nested_implicit_resolution_witness :
    memEdge (_map_node_dependencies exGraphProducerFirst ⟨[], []⟩).1.ntp 1 0 = true ∧
    ((_map_node_dependencies exGraphProducerFirst ⟨[], []⟩).2).contains "x" = false := by
  have h := nested_implicit_resolution [] [] [] [] [⟨0, [], ["x"], []⟩] []
    ⟨1, [], [], [.subgraph exSubgraph]⟩ exSubgraph "x" 0
    (by simp [NodeProto.attrs]) (by decide) rfl (by decide)
  exact ⟨by simpa [exGraphProducerFirst, NodeProto.nid] using h.1,
    by simpa [exGraphProducerFirst] using h.2⟩

/-! ## Claim C4: shadowing — last writer wins -/

/-- C4: in a scope listing two producers of "x" (`p1` before `p2`, with no
later producer of "x" before the consumer), the scope-local name-to-producer
dict resolves "x" to the SECOND producer (first conjunct), hence never to the
first when the two are distinct nodes (second conjunct); and a consumer after
them — consuming "x" directly or through the implicit inputs of its nested
subgraphs (`nodeEffectiveInputs`) — is linked to the second producer (third
conjunct). -/
theorem shadowing_last_writer (inp out vi : List ValueInfoProto) (ini : List String)
    (q1 : List NodeProto) (p1 : NodeProto) (q2 : List NodeProto) (p2 : NodeProto)
    (q3 : List NodeProto) (c : NodeProto) (rest : List NodeProto) (x : String)
    (hx1 : x ∈ p1.output) (hx2 : x ∈ p2.output) (hne : x ≠ "")
    (hq3 : ∀ n ∈ q3, x ∉ n.output)
    (hc : x ∈ nodeEffectiveInputs c) :
    prodFind (producersAfter (q1 ++ p1 :: q2 ++ p2 :: q3) []) x = some p2.nid ∧
    (p1.nid ≠ p2.nid →
      prodFind (producersAfter (q1 ++ p1 :: q2 ++ p2 :: q3) []) x ≠ some p1.nid) ∧
    memEdge (_map_node_dependencies
      (GraphProto.mk inp out vi ini ((q1 ++ p1 :: q2 ++ p2 :: q3) ++ c :: rest))
      ⟨[], []⟩).1.ntp c.nid p2.nid = true := by
  have hsplit : q1 ++ p1 :: q2 ++ p2 :: q3 = (q1 ++ p1 :: q2) ++ p2 :: q3 := by
    simp [List.append_assoc]
  have hfind : prodFind (producersAfter (q1 ++ p1 :: q2 ++ p2 :: q3) []) x
      = some p2.nid := by
    rw [hsplit]
    exact prodFind_producersAfter_last (q1 ++ p1 :: q2) p2 q3 [] hx2 hq3
  refine ⟨hfind, ?_, ?_⟩
  · intro hnid heq
    rw [hfind] at heq
    injection heq with h'
    exact hnid h'.symm
  · obtain ⟨cid, cin, cout, cattrs⟩ := c
    simp only [nodeEffectiveInputs, NodeProto.attrs, NodeProto.input] at hc
    simp only [NodeProto.nid]
    simp only [_map_node_dependencies]
    rw [mapNodes_append]
    simp only [mapNodes]
    have hceff : x ∈ (mapAttrs cattrs
        (mapNodes (namesOf inp) ini (q1 ++ p1 :: q2 ++ p2 :: q3) [] [] ⟨[], []⟩).1
        cin).2 := by
      rw [mapAttrs_snd_indep cattrs _ ⟨[], []⟩ cin]
      exact hc
    exact (mapsLE_mapNodes (namesOf inp) ini rest _ _ _).1 cid p2.nid
      (processInputs_creates_edge (namesOf inp) ini _ cid _ _ _ hceff hne hfind)

/-- Witness for C4 at `exGraphShadow`: "x" resolves to producer 1 (the second
of the two producers 0 and 1) and the consumer 2 is linked to it. -/
theorem shadowing_last_writer_witness :
    prodFind (producersAfter [⟨0, [], ["x"], []⟩, ⟨1, [], ["x"], []⟩] []) "x"
      = some 1 ∧
    memEdge (_map_node_dependencies exGraphShadow ⟨[], []⟩).1.ntp 2 1 = true := by
  have h := shadowing_last_writer [] [] [] [] [] ⟨0, [], ["x"], []⟩ []
    ⟨1, [], ["x"], []⟩ [] ⟨2, ["x"], [], []⟩ [] "x"
    (by decide) (by decide) (by decide) (by simp) (by decide)
  exact ⟨by simpa [NodeProto.nid] using h.1,
    by simpa [exGraphShadow, NodeProto.nid] using h.2.2⟩

/-! ## Claim C5: dependency edges respect document order within a scope -/

/-- C5: in any scope, a node `A` is NEVER linked (as a consumer in
`node_to_producers`) to a node appearing after it in the same scope's node
sequence — the producer dict only holds nodes recorded before `A` was
processed (first conjunct, stated for any identity `bid` occurring in the
later nodes or their subtrees, assuming the tree's node objects are distinct);
and a non-empty name `A` references that no earlier node of the scope
produces, and that is neither a declared input nor an initializer of the
scope, is added to the scope's implicit-input set instead (second
conjunct). -/
theorem mapG_document_order (inp out vi : List ValueInfoProto) (ini : List String)
    (pre rest : List NodeProto) (A : NodeProto) (bid : Nat)
    (hnodup : (allIdsG (GraphProto.mk inp out vi ini (pre ++ A :: rest))).Nodup)
    (hbid : bid ∈ allIdsNodes rest) :
    memEdge (_map_node_dependencies (GraphProto.mk inp out vi ini (pre ++ A :: rest))
      ⟨[], []⟩).1.ntp A.nid bid = false ∧
    (∀ x, x ∈ A.input → x ≠ "" → (∀ n ∈ pre, x ∉ n.output) →
      (namesOf inp).contains x = false → ini.contains x = false →
      ((_map_node_dependencies (GraphProto.mk inp out vi ini (pre ++ A :: rest))
        ⟨[], []⟩).2).contains x = true) := by
  obtain ⟨aid, ain, aout, aattrs⟩ := A
  simp only [NodeProto.nid, NodeProto.input]
  rw [allIdsG, allIdsNodes_append, allIdsNodes] at hnodup
  have hdisj := List.disjoint_of_nodup_append hnodup
  have hrestpart := hnodup.of_append_right
  have haidpre : aid ∉ allIdsNodes pre := fun hmem => hdisj hmem (List.mem_cons_self _ _)
  have hbidpre : bid ∉ allIdsNodes pre := fun hmem =>
    hdisj hmem (List.mem_cons_of_mem _ (List.mem_append_right _ hbid))
  have haidno : aid ∉ allIdsAttrs aattrs ++ allIdsNodes rest :=
    (List.nodup_cons.1 hrestpart).1
  have haidattrs : aid ∉ allIdsAttrs aattrs := fun hmem =>
    haidno (List.mem_append_left _ hmem)
  have haidrest : aid ∉ allIdsNodes rest := fun hmem =>
    haidno (List.mem_append_right _ hmem)
  simp only [_map_node_dependencies]
  rw [mapNodes_append]
  simp only [mapNodes]
  constructor
  · cases hE : memEdge (mapNodes (namesOf inp) ini rest _ _ _).1.ntp aid bid with
    | false => rfl
    | true =>
        exfalso
        rw [memEdge, frozen_mapNodes _ _ _ _ _ _ haidrest] at hE
        rcases processInputs_ntp_new _ _ _ _ _ _ _ hE with hold | ⟨-, hvals⟩
        · rw [memEdge, frozen_mapAttrs _ _ _ haidattrs,
              frozen_mapNodes _ _ _ _ _ _ haidpre] at hold
          simp [dictGetD, dictFind, List.contains] at hold
        · rcases prodVals_producersAfter_subset pre [] hvals with h | h
          · simp [prodVals] at h
          · exact hbidpre (topIds_subset_allIds _ h)
  · intro x hxin hxne hxpre hxgin hxini
    apply mapNodes_impl_mono
    apply processInputs_adds_nonlocal _ _ _ _ _ _ _
      (mapAttrs_snd_mem_of_mem _ _ _ hxin) hxne
    rw [is_local_value, prodFind_producersAfter_not_out pre [] hxpre]
    rw [show prodFind ([] : ProdMap) x = none from rfl, hxini, hxgin]
    rfl

/-- Witness for C5 at `exGraphUseBeforeDef`: the consumer node 0 (which
references "x" before its producer node 1) is not linked to node 1, and "x"
is recorded in the scope's implicit-input set. -/
theorem mapG_document_order_witness :
    memEdge (_map_node_dependencies exGraphUseBeforeDef ⟨[], []⟩).1.ntp 0 1 = false ∧
    ((_map_node_dependencies exGraphUseBeforeDef ⟨[], []⟩).2).contains "x" = true := by
  have h := mapG_document_order [] [] [] [] [] [⟨1, [], ["x"], []⟩]
    ⟨0, ["x"], [], []⟩ 1 (by decide) (by decide)
  refine ⟨by simpa [exGraphUseBeforeDef, NodeProto.nid] using h.1, ?_⟩
  have h2 := h.2 "x" (by decide) (by decide) (by simp) (by decide) (by decide)
  simpa [exGraphUseBeforeDef] using h2

end Onnx
